import Mathlib

/-!
Shallow embedding of the dataset-cleanser-api repository
(`src/dbmanager.py`, `src/main.py`, `src/models.py`).

The JSON document store (`datasets.json`) is modelled as a `List DatasetRecord`,
the SQLite mirror table `datasets` as a `List MirrorRow` in rowid order
(plain `SELECT` returns rows in rowid order; `ON CONFLICT DO UPDATE` keeps the
rowid, a plain `INSERT` appends), the `api_keys` table as a `List ApiKeyRow`,
and the `usage_logs` table as a `List UsageLogEntry`.

`json.dumps` / `json.loads` on lists of strings (used in
`sync_json_to_sqlite` / `search_sqlite` for the `columns` and `tags` cells)
are embedded as executable functions `jsonDumpsList` / `jsonLoadsList`
faithful to CPython's default encoder (`ensure_ascii=True`, separator ", ")
and to `json.loads` on every text the encoder can produce.
-/

namespace DatasetCleanser

/-! ### Characters and hex digits -/

/-- Lowercase hex digit, as produced by CPython's `'\\u%04x' % n`. -/
def hexDigit (n : Nat) : Char :=
  if n < 10 then Char.ofNat (48 + n) else Char.ofNat (87 + n)

/-- Value of a hex digit; `json.loads` accepts both cases in `\uXXXX`. -/
def hexVal (c : Char) : Option Nat :=
  if 48 ≤ c.toNat ∧ c.toNat ≤ 57 then some (c.toNat - 48)
  else if 97 ≤ c.toNat ∧ c.toNat ≤ 102 then some (c.toNat - 87)
  else if 65 ≤ c.toNat ∧ c.toNat ≤ 70 then some (c.toNat - 55)
  else none

/-- The four lowercase hex digits of `n % 0x10000`, most significant first. -/
def toHex4 (n : Nat) : List Char :=
  [hexDigit (n / 4096 % 16), hexDigit (n / 256 % 16), hexDigit (n / 16 % 16), hexDigit (n % 16)]

/-- Combine four hex digits into a code unit value. -/
def hex4 (a b c d : Char) : Option Nat :=
  match hexVal a, hexVal b, hexVal c, hexVal d with
  | some x, some y, some z, some w => some (((x * 16 + y) * 16 + z) * 16 + w)
  | _, _, _, _ => none

/-- Pack a valid code point into a `Char`; `none` on surrogates / out of range
(where `json.loads` would produce a lone-surrogate `str`, unreachable from
encoder output). -/
def decodeCodepoint (n : Nat) : Option Char :=
  if h : n.isValidChar then some (Char.ofNatAux n h) else none

theorem hexVal_hexDigit : ∀ n : Fin 16, hexVal (hexDigit n.val) = some n.val := by
  decide

theorem hexVal_hexDigit_of_lt {n : Nat} (h : n < 16) : hexVal (hexDigit n) = some n :=
  hexVal_hexDigit ⟨n, h⟩

theorem hex4_toHex4 {n : Nat} (h : n < 65536) :
    (toHex4 n).length = 4 ∧
    hex4 (hexDigit (n / 4096 % 16)) (hexDigit (n / 256 % 16)) (hexDigit (n / 16 % 16))
      (hexDigit (n % 16)) = some n := by
  refine ⟨rfl, ?_⟩
  have h1 := hexVal_hexDigit_of_lt (Nat.mod_lt (n / 4096) (by norm_num) : n / 4096 % 16 < 16)
  have h2 := hexVal_hexDigit_of_lt (Nat.mod_lt (n / 256) (by norm_num) : n / 256 % 16 < 16)
  have h3 := hexVal_hexDigit_of_lt (Nat.mod_lt (n / 16) (by norm_num) : n / 16 % 16 < 16)
  have h4 := hexVal_hexDigit_of_lt (Nat.mod_lt n (by norm_num) : n % 16 < 16)
  simp only [hex4, h1, h2, h3, h4]
  congr 1
  omega

theorem decodeCodepoint_toNat (c : Char) : decodeCodepoint c.toNat = some c := by
  have hv : c.toNat.isValidChar := c.valid
  simp only [decodeCodepoint, dif_pos hv]
  congr 1

/-! ### CPython `json.dumps` (default options) on lists of strings -/

/-- Escape one character, following CPython's `py_encode_basestring_ascii`
(`ensure_ascii=True`, the default used by `json.dumps` in
`sync_json_to_sqlite`): `\\ \" \b \f \n \r \t` short escapes, characters in
`0x20..0x7e` literal, everything else `\uXXXX` (surrogate pairs above
`0xffff`). -/
def escapeChar (c : Char) : List Char :=
  if c = '\\' then ['\\', '\\']
  else if c = '"' then ['\\', '"']
  else if c = '\x08' then ['\\', 'b']
  else if c = '\x0c' then ['\\', 'f']
  else if c = '\n' then ['\\', 'n']
  else if c = '\r' then ['\\', 'r']
  else if c = '\t' then ['\\', 't']
  else if 0x20 ≤ c.toNat ∧ c.toNat ≤ 0x7e then [c]
  else if c.toNat < 0x10000 then '\\' :: 'u' :: toHex4 c.toNat
  else
    '\\' :: 'u' :: toHex4 (0xd800 + (c.toNat - 0x10000) / 0x400) ++
      '\\' :: 'u' :: toHex4 (0xdc00 + (c.toNat - 0x10000) % 0x400)

/-- The escaped body of a JSON string literal followed by `tail`. -/
def encodeBody (cs : List Char) (tail : List Char) : List Char :=
  cs.foldr (fun c acc => escapeChar c ++ acc) tail

/-- A full JSON string literal: `"` body `"`. -/
def encodeJString (cs : List Char) : List Char :=
  '"' :: encodeBody cs ['"']

/-- Item list of a nonempty JSON array in CPython's default rendering
(separator `", "`), including the closing bracket. -/
def encItems : List (List Char) → List Char
  | [] => [']']
  | [x] => encodeJString x ++ [']']
  | x :: y :: r => encodeJString x ++ ',' :: ' ' :: encItems (y :: r)

/-- Rendering of `json.dumps` of a list of strings, at the character level. -/
def dumpsChars (xs : List (List Char)) : List Char :=
  match xs with
  | [] => ['[', ']']
  | xs => '[' :: encItems xs

/-- Embedding of `json.dumps` of a list of strings (default options: `ensure_ascii=True`,
separators `", "`). -/
def jsonDumpsList (xs : List String) : String :=
  String.mk (dumpsChars (xs.map String.data))

/-! ### CPython `json.loads` on texts produced by `jsonDumpsList` -/

/-- Decode one `\uXXXX` escape (input begins after the `\u`), combining a
high surrogate with a following `\uXXXX` low surrogate, as CPython's
`py_scanstring` does: returns the decoded character and the remaining input.
Lone surrogates (which CPython would keep as surrogate code units in the
`str`) are rejected instead, since `Char` has no surrogates; they are
unreachable from encoder output. -/
def uDecode : List Char → Option (Char × List Char)
  | a :: b :: c :: d :: r =>
    (match hex4 a b c d with
    | none => none
    | some n =>
      if 0xd800 ≤ n ∧ n < 0xdc00 then
        match r with
        | '\\' :: 'u' :: e :: f :: g :: h :: r2 =>
          (match hex4 e f g h with
          | none => none
          | some m =>
            if 0xdc00 ≤ m ∧ m < 0xe000 then
              (decodeCodepoint (0x10000 + (n - 0xd800) * 0x400 + (m - 0xdc00))).map
                (fun ch => (ch, r2))
            else none)
        | _ => none
      else (decodeCodepoint n).map (fun ch => (ch, r)))
  | _ => none

/-- Parse the body of a JSON string literal after its opening quote,
following CPython's `py_scanstring` (strict mode): returns the decoded
characters and the input remaining after the closing quote. `fuel` only
bounds the recursion depth; every call site passes at least
`length input + 1`, which can never be exhausted, so the fuel never changes
the result there. -/
def parseJString : Nat → List Char → Option (List Char × List Char)
  | 0, _ => none
  | _ + 1, [] => none
  | _ + 1, '"' :: rest => some ([], rest)
  | fuel + 1, '\\' :: rest =>
    (match rest with
    | '"' :: r => (parseJString fuel r).map (fun p => ('"' :: p.1, p.2))
    | '\\' :: r => (parseJString fuel r).map (fun p => ('\\' :: p.1, p.2))
    | '/' :: r => (parseJString fuel r).map (fun p => ('/' :: p.1, p.2))
    | 'b' :: r => (parseJString fuel r).map (fun p => ('\x08' :: p.1, p.2))
    | 'f' :: r => (parseJString fuel r).map (fun p => ('\x0c' :: p.1, p.2))
    | 'n' :: r => (parseJString fuel r).map (fun p => ('\n' :: p.1, p.2))
    | 'r' :: r => (parseJString fuel r).map (fun p => ('\r' :: p.1, p.2))
    | 't' :: r => (parseJString fuel r).map (fun p => ('\t' :: p.1, p.2))
    | 'u' :: rest2 =>
      (match uDecode rest2 with
      | none => none
      | some (ch, r) => (parseJString fuel r).map (fun p => (ch :: p.1, p.2)))
    | _ => none)
  | fuel + 1, c :: rest =>
    -- strict mode: raw control characters are invalid inside a string literal
    if c.toNat < 0x20 then none
    else (parseJString fuel rest).map (fun p => (c :: p.1, p.2))

/-- Parse the items of a nonempty array in the canonical rendering produced by
`dumpsChars` (string, then either `]` at end of input or `", "` and more
items); `fuel` bounds the number of items and is always passed large enough.
On every text `dumpsChars` produces this agrees with `json.loads`. -/
def parseItems : Nat → List Char → Option (List (List Char))
  | 0, _ => none
  | k + 1, '"' :: rest =>
    (match parseJString (rest.length + 1) rest with
    | some (s, [']']) => some [s]
    | some (s, ',' :: ' ' :: r2) => (parseItems k r2).map (s :: ·)
    | _ => none)
  | _ + 1, _ => none

/-- Embedding of `json.loads` restricted to the canonical texts `jsonDumpsList` produces
(this is the only shape ever stored in the `columns` / `tags` cells);
`none` models a raised `json.JSONDecodeError`. -/
def jsonLoadsList (s : String) : Option (List String) :=
  match s.data with
  | ['[', ']'] => some []
  | '[' :: rest => (parseItems (rest.length + 1) rest).map (·.map String.mk)
  | _ => none

/-! ### Round trip: `json.loads (json.dumps xs) = xs` -/

theorem uDecode_basic {n : Nat} (hn : n < 0x10000) (hns : ¬ (0xd800 ≤ n ∧ n < 0xdc00))
    (t : List Char) :
    uDecode (toHex4 n ++ t) = (decodeCodepoint n).map (fun ch => (ch, t)) := by
  have hhex := (hex4_toHex4 hn).2
  show uDecode (hexDigit (n / 4096 % 16) :: hexDigit (n / 256 % 16) ::
    hexDigit (n / 16 % 16) :: hexDigit (n % 16) :: t) = _
  simp only [uDecode, hhex, if_neg hns]

theorem uDecode_pair {n m : Nat} (hn : n < 0x10000) (hm : m < 0x10000)
    (hns : 0xd800 ≤ n ∧ n < 0xdc00) (hms : 0xdc00 ≤ m ∧ m < 0xe000) (t : List Char) :
    uDecode (toHex4 n ++ ('\\' :: 'u' :: (toHex4 m ++ t))) =
      (decodeCodepoint (0x10000 + (n - 0xd800) * 0x400 + (m - 0xdc00))).map
        (fun ch => (ch, t)) := by
  have hhexn := (hex4_toHex4 hn).2
  have hhexm := (hex4_toHex4 hm).2
  show uDecode (hexDigit (n / 4096 % 16) :: hexDigit (n / 256 % 16) ::
    hexDigit (n / 16 % 16) :: hexDigit (n % 16) :: '\\' :: 'u' :: hexDigit (m / 4096 % 16) ::
    hexDigit (m / 256 % 16) :: hexDigit (m / 16 % 16) :: hexDigit (m % 16) :: t) = _
  simp only [uDecode, hhexn, hhexm, if_pos hns, if_pos hms]

theorem pjs_quote (f : Nat) (r : List Char) :
    parseJString (f + 1) ('"' :: r) = some ([], r) := rfl

theorem pjs_esc_quote (f : Nat) (r : List Char) :
    parseJString (f + 1) ('\\' :: '"' :: r) =
      (parseJString f r).map (fun p => ('"' :: p.1, p.2)) := rfl

theorem pjs_esc_bs (f : Nat) (r : List Char) :
    parseJString (f + 1) ('\\' :: '\\' :: r) =
      (parseJString f r).map (fun p => ('\\' :: p.1, p.2)) := rfl

theorem pjs_esc_b (f : Nat) (r : List Char) :
    parseJString (f + 1) ('\\' :: 'b' :: r) =
      (parseJString f r).map (fun p => ('\x08' :: p.1, p.2)) := rfl

theorem pjs_esc_f (f : Nat) (r : List Char) :
    parseJString (f + 1) ('\\' :: 'f' :: r) =
      (parseJString f r).map (fun p => ('\x0c' :: p.1, p.2)) := rfl

theorem pjs_esc_n (f : Nat) (r : List Char) :
    parseJString (f + 1) ('\\' :: 'n' :: r) =
      (parseJString f r).map (fun p => ('\n' :: p.1, p.2)) := rfl

theorem pjs_esc_r (f : Nat) (r : List Char) :
    parseJString (f + 1) ('\\' :: 'r' :: r) =
      (parseJString f r).map (fun p => ('\r' :: p.1, p.2)) := rfl

theorem pjs_esc_t (f : Nat) (r : List Char) :
    parseJString (f + 1) ('\\' :: 't' :: r) =
      (parseJString f r).map (fun p => ('\t' :: p.1, p.2)) := rfl

theorem pjs_esc_u (f : Nat) (rest2 : List Char) :
    parseJString (f + 1) ('\\' :: 'u' :: rest2) =
      (match uDecode rest2 with
      | none => none
      | some (ch, r) => (parseJString f r).map (fun p => (ch :: p.1, p.2))) := rfl

set_option maxHeartbeats 2000000 in
set_option maxRecDepth 4000 in
theorem pjs_lit (f : Nat) (c : Char) (hq : ¬ c = '"') (hb : ¬ c = '\\')
    (hc : ¬ c.toNat < 0x20) (r : List Char) :
    parseJString (f + 1) (c :: r) = (parseJString f r).map (fun p => (c :: p.1, p.2)) := by
  rw [parseJString.eq_def]
  split
  · omega
  · simp_all
  · simp_all
  · simp_all
  · rename_i a1 a2 fuel cx rest hqx hbx h2 h3
    injection h3 with e1 e2
    subst e1
    subst e2
    obtain rfl : fuel = f := by omega
    rw [if_neg hc]

theorem parseJString_escapeChar (f : Nat) (c : Char) (t : List Char) :
    parseJString (f + 1) (escapeChar c ++ t) =
      (parseJString f t).map (fun p => (c :: p.1, p.2)) := by
  have hvalid : c.toNat < 0xd800 ∨ (0xdfff < c.toNat ∧ c.toNat < 0x110000) := c.valid
  by_cases h1 : c = '\\'
  · subst h1; rw [show escapeChar '\\' ++ t = '\\' :: '\\' :: t from rfl, pjs_esc_bs]
  by_cases h2 : c = '"'
  · subst h2; rw [show escapeChar '"' ++ t = '\\' :: '"' :: t from rfl, pjs_esc_quote]
  by_cases h3 : c = '\x08'
  · subst h3; rw [show escapeChar '\x08' ++ t = '\\' :: 'b' :: t from rfl, pjs_esc_b]
  by_cases h4 : c = '\x0c'
  · subst h4; rw [show escapeChar '\x0c' ++ t = '\\' :: 'f' :: t from rfl, pjs_esc_f]
  by_cases h5 : c = '\n'
  · subst h5; rw [show escapeChar '\n' ++ t = '\\' :: 'n' :: t from rfl, pjs_esc_n]
  by_cases h6 : c = '\r'
  · subst h6; rw [show escapeChar '\r' ++ t = '\\' :: 'r' :: t from rfl, pjs_esc_r]
  by_cases h7 : c = '\t'
  · subst h7; rw [show escapeChar '\t' ++ t = '\\' :: 't' :: t from rfl, pjs_esc_t]
  by_cases h8 : 0x20 ≤ c.toNat ∧ c.toNat ≤ 0x7e
  · have hesc : escapeChar c ++ t = c :: t := by
      simp [escapeChar, h1, h2, h3, h4, h5, h6, h7, h8]
    rw [hesc, pjs_lit f c h2 h1 (by omega)]
  by_cases h9 : c.toNat < 0x10000
  · have hesc : escapeChar c ++ t = '\\' :: 'u' :: (toHex4 c.toNat ++ t) := by
      simp [escapeChar, h1, h2, h3, h4, h5, h6, h7, h8, h9]
    rw [hesc, pjs_esc_u, uDecode_basic h9 (by omega) t, decodeCodepoint_toNat]
    rfl
  · have hesc : escapeChar c ++ t =
        '\\' :: 'u' :: (toHex4 (0xd800 + (c.toNat - 0x10000) / 0x400) ++
          '\\' :: 'u' :: (toHex4 (0xdc00 + (c.toNat - 0x10000) % 0x400) ++ t)) := by
      simp [escapeChar, h1, h2, h3, h4, h5, h6, h7, h8, h9, List.append_assoc]
    have hmod : (c.toNat - 0x10000) % 0x400 < 0x400 := Nat.mod_lt _ (by norm_num)
    have hjoin : 0x10000 + ((0xd800 + (c.toNat - 0x10000) / 0x400) - 0xd800) * 0x400 +
        ((0xdc00 + (c.toNat - 0x10000) % 0x400) - 0xdc00) = c.toNat := by omega
    rw [hesc, pjs_esc_u,
      uDecode_pair (by omega) (by omega) (by omega) (by omega) t,
      hjoin, decodeCodepoint_toNat]
    rfl

theorem encodeBody_cons (c : Char) (cs t : List Char) :
    encodeBody (c :: cs) t = escapeChar c ++ encodeBody cs t := by
  simp [encodeBody]

theorem parseJString_encodeBody (cs rest : List Char) :
    ∀ f, cs.length < f → parseJString f (encodeBody cs ('"' :: rest)) = some (cs, rest) := by
  induction cs with
  | nil =>
    intro f hf
    obtain ⟨f2, rfl⟩ : ∃ f2, f = f2 + 1 := ⟨f - 1, by omega⟩
    exact pjs_quote f2 rest
  | cons c cs ih =>
    intro f hf
    obtain ⟨f2, rfl⟩ : ∃ f2, f = f2 + 1 := ⟨f - 1, by omega⟩
    rw [encodeBody_cons, parseJString_escapeChar, ih f2 (by simp at hf ⊢; omega)]
    rfl

theorem encodeBody_append (cs t u : List Char) :
    encodeBody cs t ++ u = encodeBody cs (t ++ u) := by
  induction cs with
  | nil => simp [encodeBody]
  | cons c cs ih => simp only [encodeBody_cons, List.append_assoc, ih]

theorem one_le_length_escapeChar (c : Char) : 1 ≤ (escapeChar c).length := by
  unfold escapeChar
  repeat' split
  all_goals simp [toHex4]

theorem length_le_length_encodeBody (cs t : List Char) :
    cs.length ≤ (encodeBody cs t).length := by
  induction cs with
  | nil => simp [encodeBody]
  | cons c cs ih =>
    rw [encodeBody_cons]
    have := one_le_length_escapeChar c
    simp only [List.length_append, List.length_cons]
    omega

theorem length_le_length_encItems (xs : List (List Char)) :
    xs.length ≤ (encItems xs).length := by
  induction xs with
  | nil => simp [encItems]
  | cons x r ih =>
    cases r with
    | nil => simp [encItems, encodeJString]
    | cons y s =>
      simp only [encItems, encodeJString]
      simp only [List.length_cons, List.length_append, List.length_cons] at ih ⊢
      omega

theorem parseItems_step (k : Nat) (rest : List Char) :
    parseItems (k + 1) ('"' :: rest) =
      (match parseJString (rest.length + 1) rest with
      | some (s, [']']) => some [s]
      | some (s, ',' :: ' ' :: r2) => (parseItems k r2).map (s :: ·)
      | _ => none) := rfl

theorem parseItems_encItems :
    ∀ (xs : List (List Char)) (k : Nat), xs ≠ [] →
      parseItems (xs.length + k) (encItems xs) = some xs := by
  intro xs
  induction xs with
  | nil => intro k h; exact absurd rfl h
  | cons x r ih =>
    intro k _
    cases r with
    | nil =>
      have henc : encItems [x] = '"' :: encodeBody x ('"' :: [']']) := by
        simp [encItems, encodeJString, encodeBody_append]
      rw [henc, show ([x] : List (List Char)).length + k = k + 1 from by
        simp [Nat.add_comm], parseItems_step,
        parseJString_encodeBody x [']'] _ (by
          have := length_le_length_encodeBody x ('"' :: [']'])
          omega)]
      rfl
    | cons y s =>
      have henc : encItems (x :: y :: s) =
          '"' :: encodeBody x ('"' :: ',' :: ' ' :: encItems (y :: s)) := by
        simp [encItems, encodeJString, encodeBody_append]
      rw [henc, show (x :: y :: s).length + k = ((y :: s).length + k) + 1 from by
        simp only [List.length_cons]; omega, parseItems_step,
        parseJString_encodeBody x (',' :: ' ' :: encItems (y :: s)) _ (by
          have := length_le_length_encodeBody x ('"' :: ',' :: ' ' :: encItems (y :: s))
          omega)]
      show (parseItems ((y :: s).length + k) (encItems (y :: s))).map (x :: ·) =
        some (x :: y :: s)
      rw [ih k (by simp)]
      rfl

/-- Round trip: `json.loads` undoes `json.dumps` on every list of strings — the
round trip behind the `columns` / `tags` cells of the mirror. -/
theorem jsonLoadsList_jsonDumpsList (xs : List String) :
    jsonLoadsList (jsonDumpsList xs) = some xs := by
  cases xs with
  | nil => rfl
  | cons x r =>
    have hne : (x.data :: r.map String.data) ≠ [] := by simp
    have hform : ∃ body, encItems (x.data :: r.map String.data) = '"' :: body := by
      cases hr : r.map String.data with
      | nil =>
        refine ⟨encodeBody x.data ['"'] ++ [']'], ?_⟩
        simp [encItems, encodeJString]
      | cons y s =>
        refine ⟨encodeBody x.data ['"'] ++ ',' :: ' ' :: encItems (y :: s), ?_⟩
        simp [encItems, encodeJString]
    obtain ⟨body, hbody⟩ := hform
    have hdata : (jsonDumpsList (x :: r)).data = '[' :: '"' :: body := by
      simp [jsonDumpsList, dumpsChars, hbody]
    have hlenle := length_le_length_encItems (x.data :: r.map String.data)
    rw [hbody] at hlenle
    simp only [List.length_cons, List.length_map] at hlenle
    have hloads : jsonLoadsList (jsonDumpsList (x :: r)) =
        (parseItems (('"' :: body).length + 1) ('"' :: body)).map (·.map String.mk) := by
      rw [jsonLoadsList, hdata]
      rfl
    rw [hloads, ← hbody]
    have hfuel : (encItems (x.data :: r.map String.data)).length + 1 =
        (x.data :: r.map String.data).length +
          ((encItems (x.data :: r.map String.data)).length + 1 -
            (x.data :: r.map String.data).length) := by
      have := length_le_length_encItems (x.data :: r.map String.data)
      omega
    rw [hfuel, parseItems_encItems _ _ hne]
    have hmk : ∀ s : String, String.mk s.data = s := fun s => rfl
    have hcomp : String.mk ∘ String.data = id := funext hmk
    show some ((x.data :: r.map String.data).map String.mk) = some (x :: r)
    rw [List.map_cons, hmk, List.map_map, hcomp, List.map_id]

/-! ### SQLite `LIKE` (default: case-insensitive for ASCII, `%`/`_` wildcards) -/

/-- SQLite's default `LIKE` operator on characters: `%` matches any sequence,
`_` matches one character, letters compare ASCII-case-insensitively
(`Char.toLower` folds exactly `A`–`Z`, as SQLite does). -/
def likeMatch : List Char → List Char → Bool
  | [], s => s.isEmpty
  | '%' :: ps, s => (s.tails).any (fun t => likeMatch ps t)
  | '_' :: _, [] => false
  | '_' :: ps, _ :: s2 => likeMatch ps s2
  | _ :: _, [] => false
  | p :: ps, c :: s2 => (p.toLower == c.toLower) && likeMatch ps s2

/-- Tests whether `kw` is an ASCII-case-insensitive prefix of `s`. -/
def prefixCI : List Char → List Char → Bool
  | [], _ => true
  | _ :: _, [] => false
  | k :: ks, c :: s => (k.toLower == c.toLower) && prefixCI ks s

/-- Tests whether `kw` occurs in `s` as an ASCII-case-insensitive substring. -/
def containsCI : List Char → List Char → Bool
  | kw, [] => prefixCI kw []
  | kw, c :: s2 => prefixCI kw (c :: s2) || containsCI kw s2

/-- Tests whether `kw` occurs in `s` as an exact (case-sensitive) substring. -/
def containsExact : List Char → List Char → Bool
  | kw, [] => kw.isPrefixOf []
  | kw, c :: s2 => kw.isPrefixOf (c :: s2) || containsExact kw s2

/-- The SQL pattern `f"%{keyword}%"` built by `search_sqlite`. -/
def sqlPattern (kw : List Char) : List Char :=
  '%' :: (kw ++ ['%'])

theorem likeMatch_pct (ps : List Char) (s : List Char) :
    likeMatch ('%' :: ps) s = (s.tails).any (fun t => likeMatch ps t) := by
  rw [likeMatch]

theorem likeMatch_usc (ps : List Char) (c : Char) (s2 : List Char) :
    likeMatch ('_' :: ps) (c :: s2) = likeMatch ps s2 := by
  rw [likeMatch]

theorem likeMatch_lit (p : Char) (hp : ¬ p = '%') (hu : ¬ p = '_') (ps : List Char)
    (c : Char) (s2 : List Char) :
    likeMatch (p :: ps) (c :: s2) = ((p.toLower == c.toLower) && likeMatch ps s2) := by
  rw [likeMatch.eq_def]
  split
  all_goals simp_all

theorem likeMatch_cons_nil (p : Char) (hp : ¬ p = '%') (ps : List Char) :
    likeMatch (p :: ps) [] = false := by
  rw [likeMatch.eq_def]
  split
  all_goals simp_all

theorem likeMatch_nil (s : List Char) : likeMatch [] s = s.isEmpty := by
  rw [likeMatch]

theorem isEmpty_mem_tails (s : List Char) : ([] : List Char) ∈ s.tails := by
  induction s with
  | nil => simp
  | cons c s2 ih => simp [List.tails_cons]

theorem tails_any_nil (s : List Char) :
    (s.tails).any (fun t => likeMatch [] t) = true := by
  rw [List.any_eq_true]
  exact ⟨[], isEmpty_mem_tails s, by simp [likeMatch_nil]⟩

theorem likeMatch_pct_nil_pattern (s : List Char) : likeMatch ['%'] s = true := by
  rw [likeMatch_pct]
  exact tails_any_nil s

/-- A keyword is free of the `LIKE` wildcards `%` and `_`. -/
def wildcardFree (kw : List Char) : Prop :=
  ∀ c ∈ kw, c ≠ '%' ∧ c ≠ '_'

instance (kw : List Char) : Decidable (wildcardFree kw) := by
  unfold wildcardFree
  infer_instance

theorem any_congr_aux {l : List (List Char)} {f g : List Char → Bool}
    (h : ∀ t, f t = g t) : l.any f = l.any g := by
  induction l with
  | nil => rfl
  | cons a l ih => simp only [List.any_cons, h a, ih]

theorem likeMatch_append_pct (kw : List Char) (hw : wildcardFree kw) (s : List Char) :
    likeMatch (kw ++ ['%']) s = prefixCI kw s := by
  induction kw generalizing s with
  | nil => simp [likeMatch_pct_nil_pattern, prefixCI]
  | cons k kw ih =>
    have hk := hw k (by simp)
    have hw2 : wildcardFree kw := fun c hc => hw c (by simp [hc])
    cases s with
    | nil =>
      rw [List.cons_append, likeMatch_cons_nil k hk.1, prefixCI]
    | cons c s2 =>
      rw [List.cons_append, likeMatch_lit k hk.1 hk.2, prefixCI, ih hw2 s2]

theorem containsCI_eq_tails_any (kw s : List Char) :
    containsCI kw s = (s.tails).any (fun t => prefixCI kw t) := by
  induction s with
  | nil => simp [containsCI, List.tails]
  | cons c s2 ih => simp [containsCI, List.tails_cons, ih]

/-- For wildcard-free keywords, `LIKE '%kw%'` is exactly ASCII-case-insensitive
substring containment. -/
theorem likeMatch_sqlPattern_eq_containsCI (kw : List Char) (hw : wildcardFree kw)
    (s : List Char) :
    likeMatch (sqlPattern kw) s = containsCI kw s := by
  rw [sqlPattern, likeMatch_pct, containsCI_eq_tails_any]
  exact any_congr_aux (fun t => likeMatch_append_pct kw hw t)

theorem self_mem_tails (s : List Char) : s ∈ s.tails := by
  cases s with
  | nil => simp
  | cons c t => simp [List.tails_cons]

theorem likeMatch_append_pct_of_prefixCI :
    ∀ (kw s : List Char), prefixCI kw s = true → likeMatch (kw ++ ['%']) s = true := by
  intro kw
  induction kw with
  | nil => intro s _; exact likeMatch_pct_nil_pattern s
  | cons k kw ih =>
    intro s hpre
    cases s with
    | nil => simp [prefixCI] at hpre
    | cons c s2 =>
      rw [prefixCI, Bool.and_eq_true] at hpre
      obtain ⟨hk, hpre2⟩ := hpre
      by_cases hkp : k = '%'
      · subst hkp
        rw [List.cons_append, likeMatch_pct, List.any_eq_true]
        refine ⟨s2, ?_, ih s2 hpre2⟩
        rw [List.tails_cons]
        exact List.mem_cons_of_mem _ (self_mem_tails s2)
      by_cases hku : k = '_'
      · subst hku
        rw [List.cons_append, likeMatch_usc]
        exact ih s2 hpre2
      · rw [List.cons_append, likeMatch_lit k hkp hku, hk, ih s2 hpre2]
        rfl

/-- Any case-insensitive occurrence of the keyword makes `LIKE '%kw%'` match,
wildcards in the keyword or not. -/
theorem likeMatch_sqlPattern_of_containsCI (kw s : List Char)
    (h : containsCI kw s = true) : likeMatch (sqlPattern kw) s = true := by
  rw [containsCI_eq_tails_any, List.any_eq_true] at h
  obtain ⟨t, ht, hpre⟩ := h
  rw [sqlPattern, likeMatch_pct, List.any_eq_true]
  exact ⟨t, ht, likeMatch_append_pct_of_prefixCI kw t hpre⟩

theorem prefixCI_of_isPrefixOf :
    ∀ (kw s : List Char), kw.isPrefixOf s = true → prefixCI kw s = true := by
  intro kw
  induction kw with
  | nil => intro s _; rfl
  | cons k kw ih =>
    intro s hp
    cases s with
    | nil => simp [List.isPrefixOf] at hp
    | cons c s2 =>
      rw [List.isPrefixOf, Bool.and_eq_true] at hp
      obtain ⟨hk, hp2⟩ := hp
      have : k = c := by simpa using hk
      subst this
      rw [prefixCI, ih s2 hp2]
      simp

theorem containsCI_of_containsExact :
    ∀ (kw s : List Char), containsExact kw s = true → containsCI kw s = true := by
  intro kw s
  induction s with
  | nil =>
    intro h
    rw [containsExact] at h
    rw [containsCI]
    exact prefixCI_of_isPrefixOf kw [] h
  | cons c s2 ih =>
    intro h
    rw [containsExact, Bool.or_eq_true] at h
    rw [containsCI, Bool.or_eq_true]
    rcases h with h | h
    · exact Or.inl (prefixCI_of_isPrefixOf kw (c :: s2) h)
    · exact Or.inr (ih h)

/-! ### Data model (`models.py`) -/

/-- A validated dataset record (`models.DatasetMeta` / `models.UpdatePayload`:
`id`, `name`, `url` required, the rest optional; pydantic accepts `tags=None`
or a list, default `[]`). -/
structure DatasetRecord where
  id : String
  name : String
  url : String
  updated : Option String
  rows : Option Int
  columns : Option (List String)
  description : Option String
  tags : Option (List String)
deriving DecidableEq, Repr

/-- One row of the SQLite `datasets` table, in rowid order. The `columns` and
`tags` cells hold `json.dumps` text (or NULL), exactly as
`sync_json_to_sqlite` writes them. `id` is the TEXT PRIMARY KEY; every row is
written from a validated record, so `name`/`url` are present. -/
structure MirrorRow where
  id : String
  name : String
  url : String
  updated : Option String
  rows : Option Int
  columns : Option String
  description : Option String
  tags : Option String
deriving DecidableEq, Repr

/-- The parameter tuple `sync_json_to_sqlite` binds for one item:
`json.dumps(item.get("columns")) if item.get("columns") is not None else None`,
and likewise for `tags`. -/
def serializeRecord (r : DatasetRecord) : MirrorRow :=
  { id := r.id
    name := r.name
    url := r.url
    updated := r.updated
    rows := r.rows
    columns := r.columns.map jsonDumpsList
    description := r.description
    tags := r.tags.map jsonDumpsList }

/-! ### Document store (`dbmanager.py`, JSON side) -/

/-- The in-place replace-or-append loop of `upsert_item` (`dbmanager.py`
lines 115–126): scan for the first record with the same `id`, replace it in
place and stop; append if none is found. -/
def upsert_list (items : List DatasetRecord) (item : DatasetRecord) : List DatasetRecord :=
  match items with
  | [] => [item]
  | it :: rest =>
    if it.id = item.id then item :: rest
    else it :: upsert_list rest item

/-- Embedding of `INSERT ... ON CONFLICT(id) DO UPDATE` into the mirror: the conflicting
row keeps its rowid (list position); a fresh insert appends. -/
def upsertRow (m : List MirrorRow) (row : MirrorRow) : List MirrorRow :=
  match m with
  | [] => [row]
  | r0 :: rest =>
    if r0.id = row.id then row :: rest
    else r0 :: upsertRow rest row

/-- Embedding of `sync_json_to_sqlite`: upsert every JSON item into the `datasets` table
(the mirror is never pruned). -/
def sync_json_to_sqlite (mirror : List MirrorRow) (items : List DatasetRecord) :
    List MirrorRow :=
  items.foldl (fun m r => upsertRow m (serializeRecord r)) mirror

/-- The two persistent stores: `datasets.json` (authoritative) and the SQLite
`datasets` table (search mirror). -/
structure AppState where
  docStore : List DatasetRecord
  mirror : List MirrorRow
deriving DecidableEq, Repr

/-- Embedding of `upsert_item`: read the JSON document, replace-in-place or append, write
it back, then synchronously re-sync the whole document into the mirror. -/
def upsert_item (st : AppState) (item : DatasetRecord) : AppState :=
  let items := upsert_list st.docStore item
  { docStore := items, mirror := sync_json_to_sqlite st.mirror items }

/-- Embedding of `query_all`: returns the parsed JSON document. -/
def query_all (st : AppState) : List DatasetRecord :=
  st.docStore

/-- The sort key of `query_latest`: `x.get("updated") or ""` (both a missing
`updated` and an empty one become `""`). -/
def updatedKey (r : DatasetRecord) : String :=
  r.updated.getD ""

/-- Embedding of `query_latest`: `sorted(items, key=..., reverse=True)[:limit]`. CPython's
`sorted` is a stable sort; `reverse=True` orders keys descending while ties
keep document order, which is exactly `mergeSort` with the relation
`key b ≤ key a`. -/
def query_latest (st : AppState) (limit : Nat) : List DatasetRecord :=
  (st.docStore.mergeSort (fun a b => decide (updatedKey b ≤ updatedKey a))).take limit

/-! ### Search (`search_sqlite`) -/

/-- The SQL row filter
`name LIKE ? OR description LIKE ? OR tags LIKE ?` with pattern `%keyword%`;
a NULL column never matches (`NULL LIKE x` is NULL). -/
def rowMatches (kw : String) (r : MirrorRow) : Bool :=
  likeMatch (sqlPattern kw.data) r.name.data ||
    (r.description.elim false (fun d => likeMatch (sqlPattern kw.data) d.data)) ||
    (r.tags.elim false (fun t => likeMatch (sqlPattern kw.data) t.data))

/-- One result dict of `search_sqlite`, with `columns`/`tags` parsed back
from their serialized cells. -/
structure SearchHit where
  id : String
  name : String
  url : String
  updated : Option String
  rows : Option Int
  columns : Option (List String)
  description : Option String
  tags : Option (List String)
deriving DecidableEq, Repr

/-- Embedding of `json.loads(cell) if cell else None`: NULL and the empty string give
`None`. A malformed cell would raise in Python; it is modelled as the parser
returning its `none` default, and is unreachable because every stored cell is
`json.dumps` output. -/
def loadCell (cell : Option String) : Option (List String) :=
  match cell with
  | none => none
  | some s => if s = "" then none else some ((jsonLoadsList s).getD [])

/-- Build one search-result dict from a mirror row. -/
def deserializeRow (r : MirrorRow) : SearchHit :=
  { id := r.id
    name := r.name
    url := r.url
    updated := r.updated
    rows := r.rows
    columns := loadCell r.columns
    description := r.description
    tags := loadCell r.tags }

/-- Embedding of `search_sqlite(keyword, limit)`: `SELECT ... WHERE name LIKE ? OR
description LIKE ? OR tags LIKE ? LIMIT ?` scans rows in rowid order, so the
result is the first `limit` matching rows, deserialized. -/
def search_sqlite (mirror : List MirrorRow) (keyword : String) (limit : Nat) :
    List SearchHit :=
  (((mirror.filter (rowMatches keyword)).take limit).map deserializeRow)

/-! ### API keys (`create_api_key`, `validate_api_key`, `deactivate_api_key`) -/

/-- One row of the `api_keys` table (`key` TEXT PRIMARY KEY, `active`
INTEGER DEFAULT 1). -/
structure ApiKeyRow where
  key : String
  label : String
  created_at : String
  active : Int
  quota : Option Int
deriving DecidableEq, Repr

/-- Embedding of `create_api_key`: INSERT of `(k, label or "", now, 1, quota)`. The caller
must supply a key not already present, else the PRIMARY KEY constraint would
raise (`secrets.token_urlsafe(32)` collisions are the only way to violate
it). -/
def create_api_key (db : List ApiKeyRow) (k : String) (label : Option String)
    (quota : Option Int) (now : String) : List ApiKeyRow :=
  db ++ [{ key := k, label := label.getD "", created_at := now, active := 1, quota := quota }]

/-- Embedding of `validate_api_key`: `if not key: return False` (None or empty string),
then `SELECT active FROM api_keys WHERE key = ?` and
`bool(row and row[0] == 1)`. -/
def validate_api_key (db : List ApiKeyRow) (key : Option String) : Bool :=
  match key with
  | none => false
  | some k =>
    if k = "" then false
    else
      match db.find? (fun r => r.key == k) with
      | none => false
      | some row => row.active == 1

/-- Embedding of `deactivate_api_key`: `UPDATE api_keys SET active = 0 WHERE key = ?`
(touches every matching row, no error if none matches). -/
def deactivate_api_key (db : List ApiKeyRow) (k : String) : List ApiKeyRow :=
  db.map (fun r => if r.key = k then { r with active := 0 } else r)

/-! ### Usage log (`log_usage`) -/

/-- One row of the `usage_logs` table. -/
structure UsageLogEntry where
  api_key : String
  endpoint : String
  ts : Int
deriving DecidableEq, Repr

/-- The module `dbmanager.py` imports `os, json, sqlite3, datetime, secrets, asyncio` —
and not `time`. -/
def dbmanagerImportsTime : Bool := false

/-- Embedding of `log_usage`: the body evaluates `int(time.time())` inside
`try: ... except Exception: pass`. Because the `time` module is never
imported in `dbmanager.py`, that line raises `NameError`, the bare `except`
swallows it, and no row is ever inserted. -/
def log_usage (api_key endpoint : String) (now : Int) (logs : List UsageLogEntry) :
    List UsageLogEntry :=
  if dbmanagerImportsTime then
    logs ++ [{ api_key := api_key, endpoint := endpoint, ts := now }]
  else
    logs

/-! ### Rate limiting (`main.py`) -/

/-- Embedding of `_mem_rate_check` (`main.py` lines 121–130): pop timestamps
`<= now - RATE_WINDOW` off the front of the per-client list (the repeated
front-pop is `dropWhile`), return limited without appending when `>= RATE_LIMIT`
remain, else append `now`. Returns `(limited, new list)`. -/
def mem_rate_check (rateLimit rateWindow : Int) (now : Int) (hits : List Int) :
    Bool × List Int :=
  if rateLimit ≤ (hits.dropWhile (fun t => t ≤ now - rateWindow)).length then
    (true, hits.dropWhile (fun t => t ≤ now - rateWindow))
  else (false, hits.dropWhile (fun t => t ≤ now - rateWindow) ++ [now])

/-- Embedding of `_redis_rate_check` (`main.py` lines 108–118): the pipeline either raises
(modelled as `Except.error`) or yields the post-increment counter; on any
exception the function returns `False` (not limited). -/
def redis_rate_check (rateLimit : Int) (pipelineResult : Except String Nat) : Bool :=
  match pipelineResult with
  | .error _ => false
  | .ok count => rateLimit < (count : Int)

/-! ### Helper lemmas about the stores -/

theorem upsert_list_of_not_mem (items : List DatasetRecord) (R : DatasetRecord)
    (h : R.id ∉ items.map (fun r => r.id)) : upsert_list items R = items ++ [R] := by
  induction items with
  | nil => rfl
  | cons it rest ih =>
    simp only [List.map_cons, List.mem_cons] at h
    push_neg at h
    rw [upsert_list, if_neg (fun e => h.1 e.symm), ih h.2]
    rfl

theorem upsert_list_set (items : List DatasetRecord) (R : DatasetRecord) :
    ∀ (i : Nat) (hi : i < items.length),
      (items.map (fun r => r.id)).Nodup → (items.get ⟨i, hi⟩).id = R.id →
      upsert_list items R = items.set i R := by
  induction items with
  | nil => intro i hi; exact absurd hi (by simp)
  | cons it rest ih =>
    intro i hi huniq hid
    cases i with
    | zero =>
      rw [upsert_list, if_pos (show it.id = R.id from hid)]
      rfl
    | succ j =>
      simp only [List.map_cons, List.nodup_cons] at huniq
      have hmem : (rest.get ⟨j, by simpa using hi⟩).id ∈ rest.map (fun r => r.id) :=
        List.mem_map_of_mem _ (rest.get_mem _ _)
      have hne : ¬ it.id = R.id := by
        intro e
        exact huniq.1 (by rw [e, ← hid]; simpa using hmem)
      rw [upsert_list, if_neg hne, ih j (by simpa using hi) huniq.2 (by simpa using hid)]
      rfl

theorem mem_upsert_list (items : List DatasetRecord) (R : DatasetRecord) :
    R ∈ upsert_list items R := by
  induction items with
  | nil => simp [upsert_list]
  | cons it rest ih =>
    rw [upsert_list]
    split
    · exact List.mem_cons_self _ _
    · exact List.mem_cons_of_mem _ ih

theorem mem_map_id_upsert_list (items : List DatasetRecord) (R : DatasetRecord) :
    ∀ x, x ∈ (upsert_list items R).map (fun r => r.id) →
      x ∈ items.map (fun r => r.id) ∨ x = R.id := by
  induction items with
  | nil => intro x hx; simp [upsert_list] at hx; exact Or.inr hx
  | cons it rest ih =>
    intro x hx
    rw [upsert_list] at hx
    split at hx
    · rename_i hcase
      simp only [List.map_cons, List.mem_cons] at hx ⊢
      rcases hx with hx | hx
      · exact Or.inr hx
      · exact Or.inl (Or.inr hx)
    · simp only [List.map_cons, List.mem_cons] at hx ⊢
      rcases hx with hx | hx
      · exact Or.inl (Or.inl hx)
      · rcases ih x hx with h | h
        · exact Or.inl (Or.inr h)
        · exact Or.inr h

theorem nodup_upsert_list (items : List DatasetRecord) (R : DatasetRecord)
    (huniq : (items.map (fun r => r.id)).Nodup) :
    ((upsert_list items R).map (fun r => r.id)).Nodup := by
  induction items with
  | nil => simp [upsert_list]
  | cons it rest ih =>
    simp only [List.map_cons, List.nodup_cons] at huniq
    rw [upsert_list]
    split
    · rename_i hcase
      simp only [List.map_cons, List.nodup_cons]
      exact ⟨by rw [← hcase]; exact huniq.1, huniq.2⟩
    · rename_i hcase
      simp only [List.map_cons, List.nodup_cons]
      refine ⟨fun hmem => ?_, ih huniq.2⟩
      rcases mem_map_id_upsert_list rest R _ hmem with h | h
      · exact huniq.1 h
      · exact hcase h

theorem filter_upsert_list (items : List DatasetRecord) (R : DatasetRecord)
    (huniq : (items.map (fun r => r.id)).Nodup) :
    (upsert_list items R).filter (fun r => r.id == R.id) = [R] := by
  induction items with
  | nil => simp [upsert_list]
  | cons it rest ih =>
    simp only [List.map_cons, List.nodup_cons] at huniq
    rw [upsert_list]
    split
    · rename_i hcase
      have hnone : rest.filter (fun r => r.id == R.id) = [] := by
        rw [List.filter_eq_nil_iff]
        intro a ha
        simp only [beq_iff_eq]
        intro e
        exact huniq.1 (by rw [hcase, ← e]; exact List.mem_map_of_mem _ ha)
      rw [List.filter_cons_of_pos (by simp), hnone]
    · rename_i hcase
      rw [List.filter_cons_of_neg (by simpa using hcase), ih huniq.2]

theorem mem_upsertRow_self (m : List MirrorRow) (row : MirrorRow) :
    row ∈ upsertRow m row := by
  induction m with
  | nil => simp [upsertRow]
  | cons r0 rest ih =>
    rw [upsertRow]
    split
    · exact List.mem_cons_self _ _
    · exact List.mem_cons_of_mem _ ih

theorem mem_upsertRow_of_ne (m : List MirrorRow) (row x : MirrorRow)
    (hmem : row ∈ m) (hne : ¬ row.id = x.id) : row ∈ upsertRow m x := by
  induction m with
  | nil => simp at hmem
  | cons r0 rest ih =>
    rw [upsertRow]
    rcases List.mem_cons.mp hmem with rfl | hmem2
    · split
      · rename_i h; exact absurd h hne
      · exact List.mem_cons_self _ _
    · split
      · exact List.mem_cons_of_mem _ hmem2
      · exact List.mem_cons_of_mem _ (ih hmem2)

theorem mem_sync_preserved (items : List DatasetRecord) (row : MirrorRow)
    (hids : ∀ r ∈ items, ¬ row.id = r.id) :
    ∀ m, row ∈ m → row ∈ sync_json_to_sqlite m items := by
  induction items with
  | nil => intro m hm; exact hm
  | cons it rest ih =>
    intro m hm
    rw [sync_json_to_sqlite, List.foldl_cons]
    exact ih (fun r hr => hids r (List.mem_cons_of_mem _ hr)) _
      (mem_upsertRow_of_ne m row (serializeRecord it) hm (hids it (List.mem_cons_self _ _)))

theorem mem_sync_of_mem (items : List DatasetRecord) (R : DatasetRecord)
    (hR : R ∈ items) (huniq : (items.map (fun r => r.id)).Nodup) :
    ∀ m, serializeRecord R ∈ sync_json_to_sqlite m items := by
  induction items with
  | nil => simp at hR
  | cons it rest ih =>
    intro m
    simp only [List.map_cons, List.nodup_cons] at huniq
    rcases List.mem_cons.mp hR with rfl | hmem
    · rw [sync_json_to_sqlite, List.foldl_cons]
      exact mem_sync_preserved rest (serializeRecord R)
        (fun r hr e => huniq.1 (by
          have e2 : R.id = r.id := e
          rw [e2]; exact List.mem_map_of_mem _ hr)) _
        (mem_upsertRow_self m (serializeRecord R))
    · rw [sync_json_to_sqlite, List.foldl_cons]
      exact ih hmem huniq.2 _

theorem dropWhile_eq_filter_of_sorted (c : Int) :
    ∀ (hits : List Int), hits.Pairwise (· ≤ ·) →
      hits.dropWhile (fun t => t ≤ c) = hits.filter (fun t => c < t) := by
  intro hits
  induction hits with
  | nil => intro _; rfl
  | cons h t ih =>
    intro hs
    rw [List.pairwise_cons] at hs
    by_cases hc : h ≤ c
    · rw [List.dropWhile_cons_of_pos (by simpa using hc),
        List.filter_cons_of_neg (by simpa using hc), ih hs.2]
    · rw [List.dropWhile_cons_of_neg (by simpa using hc),
        List.filter_cons_of_pos (by simpa using hc)]
      congr 1
      symm
      rw [List.filter_eq_self]
      intro a ha
      have := hs.1 a ha
      simp only [decide_eq_true_eq]
      omega

/-- The spec-side description of the search filter: the keyword occurs
ASCII-case-insensitively in `name`, `description`, or the serialized `tags`
cell. -/
def rowContainsCI (kw : String) (r : MirrorRow) : Bool :=
  containsCI kw.data r.name.data ||
    (r.description.elim false (fun d => containsCI kw.data d.data)) ||
    (r.tags.elim false (fun t => containsCI kw.data t.data))

theorem rowMatches_eq_rowContainsCI (kw : String) (hw : wildcardFree kw.data)
    (r : MirrorRow) : rowMatches kw r = rowContainsCI kw r := by
  rw [rowMatches, rowContainsCI, likeMatch_sqlPattern_eq_containsCI kw.data hw]
  congr 1
  · congr 1
    cases r.description with
    | none => rfl
    | some d => exact likeMatch_sqlPattern_eq_containsCI kw.data hw d.data
  · cases r.tags with
    | none => rfl
    | some t => exact likeMatch_sqlPattern_eq_containsCI kw.data hw t.data

/-! ### Interleaving model for two concurrent `upsert_item` callers

`upsert_item` is a read → modify → write sequence over the whole JSON
document with no lock anywhere in the repository. Each thread first reads the
document (`read_json`), then writes back its own modified copy
(`write_json`). -/

inductive UpsertAct where
  | read (tid : Bool)
  | write (tid : Bool)
deriving DecidableEq, Repr

structure ConcState where
  doc : List DatasetRecord
  snapA : Option (List DatasetRecord)
  snapB : Option (List DatasetRecord)
deriving DecidableEq, Repr

/-- One scheduler step: a `read` snapshots the shared document into the
thread's local `items`; a `write` stores the thread's `upsert_list` result
computed from its snapshot (a thread writes only after its read). -/
def concStep (recA recB : DatasetRecord) (s : ConcState) : UpsertAct → ConcState
  | .read false => { s with snapA := some s.doc }
  | .read true => { s with snapB := some s.doc }
  | .write false =>
    match s.snapA with
    | none => s
    | some snap => { s with doc := upsert_list snap recA }
  | .write true =>
    match s.snapB with
    | none => s
    | some snap => { s with doc := upsert_list snap recB }

/-- Run a schedule of interleaved actions from the two upsert callers. -/
def concRun (recA recB : DatasetRecord) (s0 : ConcState) (sched : List UpsertAct) :
    ConcState :=
  sched.foldl (concStep recA recB) s0

/-! ### Claim theorems -/

/-- C1: for every valid record `R` and store state with at most one record per
id, `upsert(R)` leaves `queryAll()` with exactly one record of that id, equal
to `R`; an existing record is replaced in place (same position), otherwise
`R` is appended. -/
theorem C1_upsert_replaces_or_appends (st : AppState) (R : DatasetRecord)
    (huniq : (st.docStore.map (fun r => r.id)).Nodup) :
    ((query_all (upsert_item st R)).filter (fun r => r.id == R.id) = [R])
    ∧ (∀ (i : Nat) (hi : i < st.docStore.length), (st.docStore.get ⟨i, hi⟩).id = R.id →
        query_all (upsert_item st R) = st.docStore.set i R)
    ∧ (R.id ∉ st.docStore.map (fun r => r.id) →
        query_all (upsert_item st R) = st.docStore ++ [R]) := by
  have hq : query_all (upsert_item st R) = upsert_list st.docStore R := rfl
  refine ⟨?_, ?_, ?_⟩
  · rw [hq]; exact filter_upsert_list _ _ huniq
  · intro i hi hid; rw [hq]; exact upsert_list_set _ _ i hi huniq hid
  · intro h; rw [hq]; exact upsert_list_of_not_mem _ _ h

theorem C1_witness :
    (query_all (upsert_item ⟨[⟨"d1", "Iris", "u", none, none, none, none, none⟩], []⟩
        ⟨"d1", "Iris2", "u2", none, none, none, none, none⟩)).filter
        (fun r => r.id == (⟨"d1", "Iris2", "u2", none, none, none, none, none⟩ :
          DatasetRecord).id) = [⟨"d1", "Iris2", "u2", none, none, none, none, none⟩] :=
  (C1_upsert_replaces_or_appends ⟨[⟨"d1", "Iris", "u", none, none, none, none, none⟩], []⟩
    ⟨"d1", "Iris2", "u2", none, none, none, none, none⟩ (by decide)).1

/-- C7: the claim says `logUsage` appends exactly one `(key, endpoint,
timestamp)` entry. The code cannot: `dbmanager.py` never imports `time`, so
`int(time.time())` raises `NameError`, swallowed by `except Exception: pass`,
and the usage log is left unchanged on every call. -/
theorem C7_log_usage_appends_nothing (api_key endpoint : String) (now : Int)
    (logs : List UsageLogEntry) :
    log_usage api_key endpoint now logs = logs := rfl

/-- C8: when the Redis pipeline raises (any backend failure), the rate check
returns not-limited — the limiter fails open and no error escapes. -/
theorem C8_redis_fails_open (rateLimit : Int) (err : String) :
    redis_rate_check rateLimit (Except.error err) = false := rfl

/-- C9: the claim requires `upsert` to hold an exclusive lock around its
read→modify→write→sync so concurrent upserts of different ids both persist.
`upsert_item` takes no lock, so the interleaving read-A, read-B, write-A,
write-B (both threads completing a full upsert of distinct ids from the empty
store) ends with only `"b"` in the document — `"a"` is lost — while the
sequential composition keeps both. -/
theorem C9_unsynchronized_upserts_lose_update :
    (concRun ⟨"a", "A", "ua", none, none, none, none, none⟩
        ⟨"b", "B", "ub", none, none, none, none, none⟩
        ⟨[], none, none⟩
        [UpsertAct.read false, UpsertAct.read true,
          UpsertAct.write false, UpsertAct.write true]).doc
      = [⟨"b", "B", "ub", none, none, none, none, none⟩]
    ∧ upsert_list (upsert_list [] ⟨"a", "A", "ua", none, none, none, none, none⟩)
        ⟨"b", "B", "ub", none, none, none, none, none⟩
      = [⟨"a", "A", "ua", none, none, none, none, none⟩,
         ⟨"b", "B", "ub", none, none, none, none, none⟩] := by
  exact ⟨rfl, rfl⟩

/-- C3: `queryLatest(n)` takes the first `n` of a stable descending sort of
the document by the key `updated or ""`: the result has length
`min n storeSize`, is sorted by that key descending (so records missing
`updated`, whose key is the minimal string `""`, come last), and is a prefix
of a permutation of the store that keeps original order on ties (any
originally-ordered pair with `key b ≤ key a` stays in that order). -/
theorem C3_query_latest_sorted (st : AppState) (n : Nat) :
    (query_latest st n).length = min n st.docStore.length
    ∧ (query_latest st n).Pairwise (fun a b => updatedKey b ≤ updatedKey a)
    ∧ ∃ L, query_latest st n = L.take n ∧ L.Perm st.docStore ∧
        L.Pairwise (fun a b => updatedKey b ≤ updatedKey a) ∧
        (∀ a b, List.Sublist [a, b] st.docStore → updatedKey b ≤ updatedKey a →
          List.Sublist [a, b] L) := by
  have htrans : ∀ a b c : DatasetRecord,
      (decide (updatedKey b ≤ updatedKey a)) = true →
      (decide (updatedKey c ≤ updatedKey b)) = true →
      (decide (updatedKey c ≤ updatedKey a)) = true := by
    intro a b c h1 h2
    simp only [decide_eq_true_eq] at h1 h2 ⊢
    exact le_trans h2 h1
  have htotal : ∀ a b : DatasetRecord,
      ((decide (updatedKey b ≤ updatedKey a)) ||
        (decide (updatedKey a ≤ updatedKey b))) = true := by
    intro a b
    simp only [Bool.or_eq_true, decide_eq_true_eq]
    exact le_total (updatedKey b) (updatedKey a)
  have hsorted := List.sorted_mergeSort htrans htotal st.docStore
  have hsorted' : (st.docStore.mergeSort (fun a b =>
      decide (updatedKey b ≤ updatedKey a))).Pairwise
      (fun a b => updatedKey b ≤ updatedKey a) :=
    hsorted.imp (fun h => by simpa using h)
  refine ⟨?_, ?_, ?_⟩
  · simp [query_latest]
  · exact List.Pairwise.sublist (List.take_sublist n _) hsorted'
  · refine ⟨st.docStore.mergeSort (fun a b => decide (updatedKey b ≤ updatedKey a)),
      rfl, List.mergeSort_perm _ _, hsorted', ?_⟩
    intro a b hsub hle
    exact List.pair_sublist_mergeSort htrans htotal (by simpa using hle) hsub

theorem C3_witness :
    (query_latest ⟨[⟨"d1", "A", "u", none, none, none, none, none⟩,
        ⟨"d2", "B", "u", some "2024-05-01", none, none, none, none⟩,
        ⟨"d3", "C", "u", some "2024-05-01", none, none, none, none⟩], []⟩ 2).length =
      min 2 ([⟨"d1", "A", "u", none, none, none, none, none⟩,
        ⟨"d2", "B", "u", some "2024-05-01", none, none, none, none⟩,
        ⟨"d3", "C", "u", some "2024-05-01", none, none, none, none⟩] :
          List DatasetRecord).length :=
  (C3_query_latest_sorted ⟨[⟨"d1", "A", "u", none, none, none, none, none⟩,
    ⟨"d2", "B", "u", some "2024-05-01", none, none, none, none⟩,
    ⟨"d3", "C", "u", some "2024-05-01", none, none, none, none⟩], []⟩ 2).1

/-- C5: the in-memory limiter first drops every stored timestamp
`<= now - W` (the front-only purge equals a full filter because the stored
list is ascending), returns limited without appending when `>= L` remain,
else appends `now`; consequently with `L=3`, `W=60`, three calls in the
window pass, a fourth is limited (and not recorded), and a call after the
first timestamp leaves the window passes again. -/
theorem C5_mem_rate_limiter (rateLimit rateWindow now : Int) (hits : List Int)
    (hsorted : hits.Pairwise (· ≤ ·)) :
    (mem_rate_check rateLimit rateWindow now hits =
      (if rateLimit ≤ (hits.filter (fun t => now - rateWindow < t)).length then
        (true, hits.filter (fun t => now - rateWindow < t))
      else (false, hits.filter (fun t => now - rateWindow < t) ++ [now])))
    ∧ (mem_rate_check 3 60 0 [] = (false, [0])
      ∧ mem_rate_check 3 60 10 [0] = (false, [0, 10])
      ∧ mem_rate_check 3 60 20 [0, 10] = (false, [0, 10, 20])
      ∧ mem_rate_check 3 60 30 [0, 10, 20] = (true, [0, 10, 20])
      ∧ mem_rate_check 3 60 61 [0, 10, 20] = (false, [10, 20, 61])) := by
  constructor
  · rw [mem_rate_check, dropWhile_eq_filter_of_sorted _ hits hsorted]
  · exact ⟨by decide, by decide, by decide, by decide, by decide⟩

theorem C5_witness :
    mem_rate_check 2 60 100 [10, 50, 90] =
      (if (2 : Int) ≤ (([10, 50, 90] : List Int).filter (fun t => 100 - 60 < t)).length then
        (true, ([10, 50, 90] : List Int).filter (fun t => 100 - 60 < t))
      else (false, ([10, 50, 90] : List Int).filter (fun t => 100 - 60 < t) ++ [100])) :=
  (C5_mem_rate_limiter 2 60 100 [10, 50, 90] (by decide)).1

/-- C6: `validateKey` is true iff an `api_keys` row exists for the token with
`active = 1`; it is false for `None` and for the empty token regardless of
the table, false for a never-issued token, true right after `createKey`,
false after `deactivateKey` on the token, and `deactivateKey` of an unknown
token is a total no-op (the `UPDATE` matches nothing and raises nothing). -/
theorem C6_api_key_lifecycle (db : List ApiKeyRow) (t k : String) (lbl : Option String)
    (q : Option Int) (now : String)
    (huniq : (db.map (fun r => r.key)).Nodup)
    (hfresh : k ∉ db.map (fun r => r.key)) (hk : k ≠ "") :
    (validate_api_key db none = false)
    ∧ (validate_api_key db (some "") = false)
    ∧ (validate_api_key db (some t) = true ↔
        t ≠ "" ∧ ∃ r ∈ db, r.key = t ∧ r.active = 1)
    ∧ (validate_api_key db (some k) = false)
    ∧ (validate_api_key (create_api_key db k lbl q now) (some k) = true)
    ∧ (∀ (db2 : List ApiKeyRow) (t2 : String),
        validate_api_key (deactivate_api_key db2 t2) (some t2) = false)
    ∧ (deactivate_api_key db k = db) := by
  have hfind_none : db.find? (fun r => r.key == k) = none := by
    rw [List.find?_eq_none]
    intro r hr
    simp only [beq_iff_eq]
    intro e
    exact hfresh (e ▸ List.mem_map_of_mem _ hr)
  refine ⟨rfl, by simp [validate_api_key], ?_, ?_, ?_, ?_, ?_⟩
  · constructor
    · intro hv
      rw [validate_api_key] at hv
      by_cases ht : t = ""
      · rw [if_pos ht] at hv; exact absurd hv (by simp)
      · rw [if_neg ht] at hv
        refine ⟨ht, ?_⟩
        cases hfind : db.find? (fun r => r.key == t) with
        | none => rw [hfind] at hv; exact absurd hv (by simp)
        | some row =>
          rw [hfind] at hv
          have hkey : row.key = t := by simpa using List.find?_some hfind
          exact ⟨row, List.mem_of_find?_eq_some hfind, hkey, by simpa using hv⟩
    · rintro ⟨ht, r, hr, hkey, hact⟩
      rw [validate_api_key, if_neg ht]
      cases hfind : db.find? (fun r => r.key == t) with
      | none =>
        rw [List.find?_eq_none] at hfind
        exact absurd (by simpa using hkey) (hfind r hr)
      | some row =>
        have hrowmem := List.mem_of_find?_eq_some hfind
        have hrowkey : row.key = t := by simpa using List.find?_some hfind
        have : row = r :=
          List.inj_on_of_nodup_map huniq hrowmem hr (by rw [hrowkey, hkey])
        rw [this]
        show (r.active == 1) = true
        rw [hact]
        rfl
  · rw [validate_api_key, if_neg hk, hfind_none]
  · rw [validate_api_key, if_neg hk, create_api_key, List.find?_append, hfind_none]
    simp
  · intro db2 t2
    rw [validate_api_key]
    by_cases ht2 : t2 = ""
    · rw [if_pos ht2]
    · rw [if_neg ht2, deactivate_api_key, List.find?_map]
      have hcomp : ((fun r : ApiKeyRow => r.key == t2) ∘
          (fun r : ApiKeyRow => if r.key = t2 then { r with active := 0 } else r)) =
          (fun r : ApiKeyRow => r.key == t2) := by
        funext r
        simp only [Function.comp]
        split
        · rename_i h; simp [h]
        · rfl
      rw [hcomp]
      cases hfind : db2.find? (fun r => r.key == t2) with
      | none => rfl
      | some row =>
        have hrowkey : row.key = t2 := by simpa using List.find?_some hfind
        simp [hrowkey]
  · rw [deactivate_api_key]
    conv_rhs => rw [← List.map_id db]
    apply List.map_congr_left
    intro r hr
    rw [if_neg, id]
    intro e
    exact hfresh (e ▸ List.mem_map_of_mem _ hr)

theorem C6_witness :
    validate_api_key (create_api_key [⟨"a", "", "t0", 1, none⟩] "b" none none "t1")
      (some "b") = true :=
  (C6_api_key_lifecycle [⟨"a", "", "t0", 1, none⟩] "a" "b" none none "t1"
    (by decide) (by decide) (by decide)).2.2.2.2.1

/-- C4 (amended): for keywords containing no `LIKE` wildcard (`%`, `_`),
`search(keyword, limit)` returns exactly the first `limit` mirror rows (in
rowid order, so deterministic) whose `name`, `description`, or serialized
`tags` contains the keyword as an ASCII-case-insensitive substring, and the
result never exceeds `limit`. For keywords containing `%` or `_` the SQL
pattern is not substring containment (see the counterexample). -/
theorem C4_search_filters_substring_ci (mirror : List MirrorRow) (kw : String) (limit : Nat)
    (hw : wildcardFree kw.data) :
    search_sqlite mirror kw limit =
      ((mirror.filter (rowContainsCI kw)).take limit).map deserializeRow
    ∧ (search_sqlite mirror kw limit).length ≤ limit := by
  have hfilter : mirror.filter (rowMatches kw) = mirror.filter (rowContainsCI kw) :=
    List.filter_congr (fun r _ => rowMatches_eq_rowContainsCI kw hw r)
  constructor
  · rw [search_sqlite, hfilter]
  · rw [search_sqlite, List.length_map]
    exact List.length_take_le _ _

theorem C4_witness :
    search_sqlite [⟨"d1", "abc", "u", none, none, none, none, none⟩] "B" 5 =
      ((([⟨"d1", "abc", "u", none, none, none, none, none⟩] :
        List MirrorRow).filter (rowContainsCI "B")).take 5).map deserializeRow :=
  (C4_search_filters_substring_ci [⟨"d1", "abc", "u", none, none, none, none, none⟩]
    "B" 5 (by decide)).1

/-- C4 as stated is false: the keyword `"%"` is a `LIKE` wildcard, so
`search("%")` returns a row whose fields do not contain `"%"` at all (neither
case-sensitively nor case-insensitively). -/
theorem C4_counterexample :
    search_sqlite [⟨"d1", "abc", "u", none, none, none, none, none⟩] "%" 10 =
      [deserializeRow ⟨"d1", "abc", "u", none, none, none, none, none⟩]
    ∧ containsExact "%".data "abc".data = false
    ∧ containsCI "%".data "abc".data = false := by
  refine ⟨by decide, by decide, by decide⟩

/-- C10 (implicit): search matches ASCII-case-insensitively (the SQL `LIKE`
default): any mirror row one of whose searched fields contains the keyword up
to ASCII case is returned, provided the matching rows fit in `limit`. This
direction holds for every keyword, wildcards included. -/
theorem C10_search_case_insensitive (mirror : List MirrorRow) (kw : String) (limit : Nat)
    (row : MirrorRow) (hmem : row ∈ mirror) (hci : rowContainsCI kw row = true)
    (hlim : (mirror.filter (rowMatches kw)).length ≤ limit) :
    deserializeRow row ∈ search_sqlite mirror kw limit := by
  have hmatch : rowMatches kw row = true := by
    rw [rowContainsCI] at hci
    rw [rowMatches]
    simp only [Bool.or_eq_true] at hci ⊢
    rcases hci with (h | h) | h
    · exact Or.inl (Or.inl (likeMatch_sqlPattern_of_containsCI _ _ h))
    · cases hdesc : row.description with
      | none => rw [hdesc] at h; exact absurd h (by simp)
      | some d =>
        rw [hdesc] at h
        refine Or.inl (Or.inr ?_)
        simpa using likeMatch_sqlPattern_of_containsCI _ _ (by simpa using h)
    · cases htags : row.tags with
      | none => rw [htags] at h; exact absurd h (by simp)
      | some tg =>
        rw [htags] at h
        refine Or.inr ?_
        simpa using likeMatch_sqlPattern_of_containsCI _ _ (by simpa using h)
  have hmemf : row ∈ mirror.filter (rowMatches kw) := List.mem_filter.mpr ⟨hmem, hmatch⟩
  rw [search_sqlite, List.take_of_length_le hlim]
  exact List.mem_map_of_mem _ hmemf

theorem C10_witness :
    deserializeRow ⟨"d1", "ABC", "u", none, none, none, none, none⟩ ∈
      search_sqlite [⟨"d1", "ABC", "u", none, none, none, none, none⟩] "abc" 5 :=
  C10_search_case_insensitive [⟨"d1", "ABC", "u", none, none, none, none, none⟩]
    "abc" 5 ⟨"d1", "ABC", "u", none, none, none, none, none⟩
    (by decide) (by decide) (by decide)

theorem jsonDumpsList_ne_empty (xs : List String) : jsonDumpsList xs ≠ "" := by
  intro h
  have hdata : dumpsChars (xs.map String.data) = [] := congrArg String.data h
  cases xs <;> simp [dumpsChars] at hdata

theorem loadCell_serialized (o : Option (List String)) :
    loadCell (o.map jsonDumpsList) = o := by
  cases o with
  | none => rfl
  | some xs =>
    show loadCell (some (jsonDumpsList xs)) = some xs
    rw [loadCell]
    rw [if_neg (jsonDumpsList_ne_empty xs), jsonLoadsList_jsonDumpsList xs]
    rfl

/-- C2: right after `upsert(R)` (which synchronously re-syncs the mirror),
searching for any keyword occurring literally in `R`'s name, description, or
serialized tags returns a hit with `R`'s id whose `columns` and `tags`
deserialize back to exactly `R`'s sequences, in order — read-your-writes plus
the `json.dumps`/`json.loads` round trip. (The matching rows must fit within
`limit`, since `LIMIT` truncates the scan.) -/
theorem C2_read_your_writes (st : AppState) (R : DatasetRecord) (kw : String) (limit : Nat)
    (huniq : (st.docStore.map (fun r => r.id)).Nodup)
    (hsub : containsExact kw.data R.name.data = true
      ∨ (∃ d, R.description = some d ∧ containsExact kw.data d.data = true)
      ∨ (∃ tg, R.tags = some tg ∧ containsExact kw.data (jsonDumpsList tg).data = true))
    (hlim : ((upsert_item st R).mirror.filter (rowMatches kw)).length ≤ limit) :
    ∃ hit ∈ search_sqlite (upsert_item st R).mirror kw limit,
      hit.id = R.id ∧ hit.name = R.name ∧ hit.columns = R.columns ∧ hit.tags = R.tags := by
  have hmemItems : R ∈ upsert_list st.docStore R := mem_upsert_list _ _
  have hnod : ((upsert_list st.docStore R).map (fun r => r.id)).Nodup :=
    nodup_upsert_list _ _ huniq
  have hmemMirror : serializeRecord R ∈ (upsert_item st R).mirror :=
    mem_sync_of_mem (upsert_list st.docStore R) R hmemItems hnod st.mirror
  have hmatch : rowMatches kw (serializeRecord R) = true := by
    rw [rowMatches]
    simp only [Bool.or_eq_true]
    rcases hsub with h | ⟨d, hd, h⟩ | ⟨tg, htg, h⟩
    · exact Or.inl (Or.inl (likeMatch_sqlPattern_of_containsCI _ _
        (containsCI_of_containsExact _ _ h)))
    · refine Or.inl (Or.inr ?_)
      show ((serializeRecord R).description.elim false
        (fun d => likeMatch (sqlPattern kw.data) d.data)) = true
      rw [show (serializeRecord R).description = R.description from rfl, hd]
      simpa using likeMatch_sqlPattern_of_containsCI _ _ (containsCI_of_containsExact _ _ h)
    · refine Or.inr ?_
      show ((serializeRecord R).tags.elim false
        (fun t => likeMatch (sqlPattern kw.data) t.data)) = true
      rw [show (serializeRecord R).tags = R.tags.map jsonDumpsList from rfl, htg]
      simpa using likeMatch_sqlPattern_of_containsCI _ _ (containsCI_of_containsExact _ _ h)
  refine ⟨deserializeRow (serializeRecord R), ?_, rfl, rfl, ?_, ?_⟩
  · have hmemf : serializeRecord R ∈ (upsert_item st R).mirror.filter (rowMatches kw) :=
      List.mem_filter.mpr ⟨hmemMirror, hmatch⟩
    rw [search_sqlite, List.take_of_length_le hlim]
    exact List.mem_map_of_mem _ hmemf
  · show loadCell ((serializeRecord R).columns) = R.columns
    rw [show (serializeRecord R).columns = R.columns.map jsonDumpsList from rfl]
    exact loadCell_serialized R.columns
  · show loadCell ((serializeRecord R).tags) = R.tags
    rw [show (serializeRecord R).tags = R.tags.map jsonDumpsList from rfl]
    exact loadCell_serialized R.tags

theorem C2_witness :
    ∃ hit ∈ search_sqlite (upsert_item ⟨[], []⟩
        ⟨"d1", "Iris", "u", none, none, some ["sepal", "petal"], none,
          some ["flowers", "csv"]⟩).mirror "flower" 50,
      hit.id = (⟨"d1", "Iris", "u", none, none, some ["sepal", "petal"], none,
          some ["flowers", "csv"]⟩ : DatasetRecord).id ∧
      hit.name = (⟨"d1", "Iris", "u", none, none, some ["sepal", "petal"], none,
          some ["flowers", "csv"]⟩ : DatasetRecord).name ∧
      hit.columns = (⟨"d1", "Iris", "u", none, none, some ["sepal", "petal"], none,
          some ["flowers", "csv"]⟩ : DatasetRecord).columns ∧
      hit.tags = (⟨"d1", "Iris", "u", none, none, some ["sepal", "petal"], none,
          some ["flowers", "csv"]⟩ : DatasetRecord).tags :=
  C2_read_your_writes ⟨[], []⟩
    ⟨"d1", "Iris", "u", none, none, some ["sepal", "petal"], none, some ["flowers", "csv"]⟩
    "flower" 50 (by decide)
    (Or.inr (Or.inr ⟨["flowers", "csv"], rfl, by decide⟩)) (by decide)
